import Mathlib

/-!
Shallow embedding of the discordance-detection core of `reefer`
(`reefer.go`): the cost-signal builder, the sliding-window smoother, the
sign-change event segmenter, the Smith-Waterman-based breakpoint refiner
(`refiner.adjust`), and the GFF feature-emission step of `deletions`.

Numeric conventions used throughout the embedding:
* Go `int` values are modelled as `Int`; Go integer division, which
  truncates toward zero, is modelled by `Int.tdiv`.
* Go `float64` cost values are modelled as `ℚ`.  All costs in the fixed
  table are small integers, so every float operation in the source except
  the final division by the window length is exact, and that division is
  correctly rounded; the program consumes only the sign of the result and
  the rounded position means, both of which agree with exact rational
  arithmetic for all realistic magnitudes (below `2^52`).
* `sam.Record` fields used by the core are carried by `SamRecord`;
  nucleotide sequences are `List Char`.
* The external Smith-Waterman aligner (`biogo/align`, an external
  collaborator of this repository) is a parameter of the refiner: any
  function producing an ordered list of aligned segment pairs.
-/

namespace Reefer

/-- CIGAR operation kinds of `biogo/hts/sam` (`sam.CigarMatch` through
`sam.CigarBack`), the index type of the cost table in `deletions`. -/
inductive CigarOpType where
  | cigarMatch
  | cigarInsertion
  | cigarDeletion
  | cigarSkipped
  | cigarSoftClipped
  | cigarHardClipped
  | cigarPadded
  | cigarEqual
  | cigarMismatch
  | cigarBack
deriving DecidableEq, Repr

/-- Reference/query consumption of one unit of a CIGAR operation, as in
`sam.Consume` of the external `biogo/hts/sam` library. -/
structure Consume where
  query : Int
  reference : Int
deriving DecidableEq, Repr

/-- Consumption table of `sam.CigarOpType.Consumes` from the external
`biogo/hts/sam` library: M, `=` and X consume one query and one reference
position per unit; I and S consume the query; D and N consume the
reference; H and P consume neither; B steps the query back one. -/
def consumes : CigarOpType → Consume
  | .cigarMatch => ⟨1, 1⟩
  | .cigarInsertion => ⟨1, 0⟩
  | .cigarDeletion => ⟨0, 1⟩
  | .cigarSkipped => ⟨0, 1⟩
  | .cigarSoftClipped => ⟨1, 0⟩
  | .cigarHardClipped => ⟨0, 0⟩
  | .cigarPadded => ⟨0, 0⟩
  | .cigarEqual => ⟨1, 1⟩
  | .cigarMismatch => ⟨1, 1⟩
  | .cigarBack => ⟨-1, 0⟩

/-- One CIGAR element (`sam.CigarOp`): an operation kind with a unit count. -/
structure CigarOp where
  type : CigarOpType
  len : Nat
deriving DecidableEq, Repr

/-- Fixed per-operation-kind cost table of `deletions` (`reefer.go`
ll. 174-187): a Go array literal indexed by operation kind with I and D
mapped to -2, `=` to 1, X to -1, S to 0 explicitly, B to 0 explicitly, and
every kind not listed in the literal (M, N, H, P) zero because Go array
literals zero-fill missing entries. -/
def cost : CigarOpType → ℚ
  | .cigarInsertion => -2
  | .cigarDeletion => -2
  | .cigarEqual => 1
  | .cigarMismatch => -1
  | .cigarSoftClipped => 0
  | .cigarBack => 0
  | .cigarMatch => 0
  | .cigarSkipped => 0
  | .cigarHardClipped => 0
  | .cigarPadded => 0

/-- Position-tagged cost sample (`costPos` in `reefer.go`). -/
structure costPos where
  ref : Int
  query : Int
  cost : ℚ
deriving DecidableEq, Repr

/-- Samples contributed by the units of one CIGAR element starting at the
given reference and query positions: each unit emits one sample carrying
the element kind's table cost, then the positions advance by the kind's
consumption rule (`reefer.go` ll. 238-247, inner loop). -/
def opSamples (t : CigarOpType) (ref query : Int) : Nat → List costPos
  | 0 => []
  | n + 1 =>
    ⟨ref, query, cost t⟩ ::
      opSamples t (ref + (consumes t).reference) (query + (consumes t).query) n

/-- Cost signal of a record: the `scores` slice built by the CIGAR walk of
`deletions` (`reefer.go` ll. 232-248), one sample per unit of every
element, starting from the record's alignment start position and query
offset 0. -/
def scoresFor (ref query : Int) : List CigarOp → List costPos
  | [] => []
  | co :: rest =>
    opSamples co.type ref query co.len ++
      scoresFor (ref + co.len * (consumes co.type).reference)
        (query + co.len * (consumes co.type).query) rest

/-- Go's `int(float64(sum)/float64(len) + 0.5)` used by `mean` for the
position fields: in exact arithmetic this is the truncation toward zero of
`sum/len + 1/2`, which for `0 < len` equals the truncated integer quotient
of `2*sum + len` by `2*len`. -/
def goRound (sum len : Int) : Int := Int.tdiv (2 * sum + len) (2 * len)

/-- Componentwise sums accumulated by the loop of `mean` (`reefer.go`
ll. 320-325). -/
def sums (c : List costPos) : costPos :=
  c.foldl (fun acc v => ⟨acc.ref + v.ref, acc.query + v.query, acc.cost + v.cost⟩) ⟨0, 0, 0⟩

/-- Window aggregate `mean` (`reefer.go` ll. 319-331): the cost is divided
exactly, the positions are rounded by `goRound`. -/
def mean (c : List costPos) : costPos :=
  ⟨goRound (sums c).ref c.length, goRound (sums c).query c.length,
    (sums c).cost / (c.length : ℚ)⟩

/-- Smoothed signal (`reefer.go` ll. 252-255): `len(scores) - window`
elements, element `i` being the `mean` of samples `[i, i+window)`. -/
def smoothScores (window : Nat) (scores : List costPos) : List costPos :=
  (List.range (scores.length - window)).map fun i => mean ((scores.drop i).take window)

/-- Candidate discordance event: the `deletion` struct of `reefer.go`
without its record pointer, which the scan uses only as an open/closed
state marker and `adjust` only to reach per-record fields passed
separately here. -/
structure Deletion where
  rstart : Int
  rend : Int
  dup : Int
  qstart : Int
  qend : Int
deriving DecidableEq, Repr

/-- Consecutive pairs scanned by `deletions` (`reefer.go` l. 258): the
loop ranges over `smoothed[1:]` with `smoothed[i]` as the previous
sample, so it visits `(smoothed[i], smoothed[i+1])` for each `i`. -/
def scanPairs (smoothed : List costPos) : List (costPos × costPos) :=
  smoothed.zip (smoothed.drop 1)

/-- Sign-change scan of `deletions` (`reefer.go` ll. 257-302): state
`none` is Go's `d.record == nil`; the first switch case opens at
`(v.ref+1, v.query+1)` with the remaining fields zero; the second fills
the end coordinates at the current sample and keeps the event iff either
span reaches `minSize`; the state clears whether or not the event is
kept.  Emission side effects are applied per kept event afterwards, which
is equivalent because they never feed back into the scan state. -/
def scanGo (minSize : Int) : Option Deletion → List (costPos × costPos) → List Deletion
  | _, [] => []
  | st, (prev, v) :: rest =>
    if st = none ∧ v.cost < 0 ∧ 0 ≤ prev.cost then
      scanGo minSize (some ⟨v.ref + 1, 0, 0, v.query + 1, 0⟩) rest
    else
      match st with
      | some d =>
        if 0 ≤ v.cost ∧ prev.cost < 0 then
          if minSize ≤ v.ref - d.rstart ∨ minSize ≤ v.query - d.qstart then
            { d with rend := v.ref, qend := v.query } :: scanGo minSize none rest
          else
            scanGo minSize none rest
        else
          scanGo minSize (some d) rest
      | none => scanGo minSize none rest

/-- Candidate events produced by scanning one record's smoothed signal. -/
def candidates (minSize : Int) (smoothed : List costPos) : List Deletion :=
  scanGo minSize none (scanPairs smoothed)

/-- Go slice expression `s[a:b]` over a sequence, with `Int` endpoints as
in the source (all slice expressions in `adjust` have their endpoints
clamped into range before slicing). -/
def slice (l : List Char) (a b : Int) : List Char :=
  (l.take b.toNat).drop a.toNat

/-- Fields of `sam.Record` consumed by the core: name, reference name,
alignment start (`r.Start()`), flag word, expanded read sequence
(`r.Seq.Expand()`, whose length is `r.Seq.Length`), and CIGAR. -/
structure SamRecord where
  name : String
  refName : String
  pos : Int
  flags : Nat
  seq : List Char
  cigar : List CigarOp

/-- Feature strand of the emitted GFF line. -/
inductive Strand where
  | plus
  | minus
deriving DecidableEq, Repr

/-- Strand selection `strandFor` (`reefer.go` ll. 333-338): minus iff the
record's flag word has the `sam.Reverse` bit (0x10). -/
def strandFor (rec : SamRecord) : Strand :=
  if rec.flags.testBit 4 then .minus else .plus

/-- One aligned segment pair of a local-alignment result: the reference
segment's start and end and the query segment's start and end, i.e. the
coordinates of `fp.Features()[0]` and `fp.Features()[1]` for an
`align.FeaturePair`. -/
structure FeatPair where
  refStart : Int
  refEnd : Int
  qStart : Int
  qEnd : Int
deriving DecidableEq, Repr

/-- Breakpoint refiner (`refiner` in `reefer.go`): configuration, the
read-only contig lookup, and the local aligner.  The aligner stands for
the external `align.SW.Align` collaborator: any function returning an
ordered list of aligned segment pairs or an error. -/
structure Refiner where
  refWindow : Int
  queryWindow : Int
  minQueryGap : Int
  minRefFlank : Int
  ref : String → Option (List Char)
  sw : List Char → List Char → Except String (List FeatPair)

/-- Offset of the reference window into the contig (`rOff`,
`reefer.go` l. 485). -/
def rsOff (r : Refiner) (d : Deletion) : Int :=
  max 0 (d.rstart - Int.tdiv r.refWindow 2)

/-- Reference window `rs.Seq = ref.Seq[rOff:min(d.rend+refWindow/2, len)]`
(`reefer.go` l. 486). -/
def rsSeqOf (r : Refiner) (refSeq : List Char) (d : Deletion) : List Char :=
  slice refSeq (rsOff r d) (min (d.rend + Int.tdiv r.refWindow 2) (refSeq.length : Int))

/-- Query midpoint `(d.qstart+d.qend)/2` (`reefer.go` ll. 494, 503). -/
def qMid (d : Deletion) : Int := Int.tdiv (d.qstart + d.qend) 2

/-- Left query window offset `qOffLeft` (`reefer.go` l. 493). -/
def qOffLeftOf (r : Refiner) (d : Deletion) : Int :=
  max 0 (d.qstart - r.queryWindow)

/-- Left query window `q[qOffLeft:(d.qstart+d.qend)/2]` (`reefer.go`
l. 494). -/
def qslOf (r : Refiner) (q : List Char) (d : Deletion) : List Char :=
  slice q (qOffLeftOf r d) (qMid d)

/-- Right query window `q[qOffRight:min(d.qend+queryWindow, len(q))]`
(`reefer.go` l. 504). -/
def qsrOf (r : Refiner) (q : List Char) (d : Deletion) : List Char :=
  slice q (qMid d) (min (d.qend + r.queryWindow) (q.length : Int))

/-- Query-centre coordinate `centrel` used by the left gap check
(`reefer.go` l. 526). -/
def centrelOf (r : Refiner) (d : Deletion) : Int :=
  r.queryWindow + Int.tdiv (d.qend - d.qstart) 2

/-- Breakpoint refinement `refiner.adjust` (`reefer.go` ll. 469-551),
parameterised by the external local aligner carried in the `Refiner`.
Every failure branch returns the input event unchanged with `false` and a
tag abbreviating the Go diagnostic; a `nil` receiver returns `false` with
no diagnostic.  Where the Go code would panic on an empty alignment
result (`alnl[len(alnl)-1]` or `alnr[0]` out of range) the embedding
returns the input unchanged with an `empty alignment` tag. -/
def adjust (rOpt : Option Refiner) (rec : SamRecord) (d : Deletion) :
    Deletion × Bool × Option String :=
  match rOpt with
  | none => (d, false, none)
  | some r =>
    if d.qend - d.qstart < d.rend - d.rstart then
      (d, false, some "not an insertion")
    else
      match r.ref rec.refName with
      | none => (d, false, some "no reference sequence")
      | some refSeq =>
        match r.sw (rsSeqOf r refSeq d) (qslOf r rec.seq d) with
        | .error _ => (d, false, some "alignment error")
        | .ok alnl =>
          match r.sw (rsSeqOf r refSeq d) (qsrOf r rec.seq d) with
          | .error _ => (d, false, some "alignment error")
          | .ok alnr =>
            match alnl.getLast?, alnr.head? with
            | some left, some right =>
              if right.refStart < r.minRefFlank then
                (d, false, some "right ref flank")
              else if ((rsSeqOf r refSeq d).length : Int) - left.refEnd < r.minRefFlank then
                (d, false, some "left ref flank")
              else if centrelOf r d - left.qEnd < r.minQueryGap then
                (d, false, some "left query gap")
              else if right.qStart - 0 < r.minQueryGap then
                (d, false, some "right query gap")
              else
                ({ rstart :=
                    if rsOff r d + right.refStart ≤ rsOff r d + left.refEnd then
                      rsOff r d + right.refStart
                    else rsOff r d + left.refEnd,
                   rend := rsOff r d + right.refStart,
                   dup :=
                    if rsOff r d + right.refStart ≤ rsOff r d + left.refEnd then
                      (rsOff r d + left.refEnd) - (rsOff r d + right.refStart)
                    else d.dup,
                   qstart := qOffLeftOf r d + left.qEnd,
                   qend := qMid d + right.qStart }, true, none)
            | _, _ => (d, false, some "empty alignment")

/-- GFF feature assembled for one kept event (`reefer.go` ll. 266-294):
seqname, start, end, strand, the `Read` attribute fields (read name,
one-based query start via `feat.ZeroToOne`, query end), and the `Dup`
attribute present exactly when refinement succeeded. -/
structure Feature where
  seqName : String
  featStart : Int
  featEnd : Int
  strand : Strand
  readName : String
  attrQStart : Int
  attrQEnd : Int
  dupAttr : Option Int
deriving DecidableEq, Repr

/-- Query-coordinate mirroring applied before refinement for minus-strand
records (`reefer.go` ll. 268-271). -/
def mirrorIfMinus (rec : SamRecord) (d0 : Deletion) : Deletion :=
  if strandFor rec = .minus then
    { d0 with qstart := (rec.seq.length : Int) - d0.qend,
              qend := (rec.seq.length : Int) - d0.qstart }
  else d0

/-- Emission of one kept candidate (`reefer.go` ll. 266-298): mirror the
query interval for minus-strand records, attempt refinement, then write
the feature, bumping the end by one when it equals the start because GFF
cannot express zero-length features. -/
def emitOne (br : Option Refiner) (rec : SamRecord) (d0 : Deletion) : Feature :=
  let d1 := mirrorIfMinus rec d0
  let d2 := (adjust br rec d1).1
  let refined := (adjust br rec d1).2.1
  { seqName := rec.refName
    featStart := d2.rstart
    featEnd := if d2.rstart = d2.rend then d2.rend + 1 else d2.rend
    strand := strandFor rec
    readName := rec.name
    attrQStart := d2.qstart + 1
    attrQEnd := d2.qend
    dupAttr := if refined then some d2.dup else none }

/-- Per-record pipeline of `deletions` (`reefer.go` ll. 232-303): build
the cost signal, skip the record when it has no more samples than the
window, smooth, segment, and emit one feature per kept candidate. -/
def processRecord (window : Nat) (minSize : Int) (br : Option Refiner)
    (rec : SamRecord) : List Feature :=
  if (scoresFor rec.pos 0 rec.cigar).length ≤ window then []
  else
    (candidates minSize (smoothScores window (scoresFor rec.pos 0 rec.cigar))).map
      (emitOne br rec)

/-- Spec-level candidate event: reference and query start/end
coordinates of one closed discordance span. -/
structure CandidateEvent where
  refStart : Int
  refEnd : Int
  queryStart : Int
  queryEnd : Int
deriving DecidableEq, Repr

/-- Event segmentation as worded by the specification: scan consecutive
samples with a single fold state, `none` or `open (startRef, startQuery)`;
open exactly when the previous cost is nonnegative and the current cost is
negative, at `(current.ref+1, current.query+1)`; close exactly when the
previous cost is negative and the current cost is nonnegative, at the
current sample's coordinates, keeping the span iff its reference span or
its query span reaches `minSize`; a span still open at the end of the
sequence produces nothing. -/
def segmentSpec (minSize : Int) (st : Option (Int × Int)) :
    List (costPos × costPos) → List CandidateEvent
  | [] => []
  | (prev, cur) :: rest =>
    match st with
    | none =>
      if 0 ≤ prev.cost ∧ cur.cost < 0 then
        segmentSpec minSize (some (cur.ref + 1, cur.query + 1)) rest
      else
        segmentSpec minSize none rest
    | some (sr, sq) =>
      if prev.cost < 0 ∧ 0 ≤ cur.cost then
        if minSize ≤ cur.ref - sr ∨ minSize ≤ cur.query - sq then
          ⟨sr, cur.ref, sq, cur.query⟩ :: segmentSpec minSize none rest
        else
          segmentSpec minSize none rest
      else
        segmentSpec minSize (some (sr, sq)) rest

/-- Projection of a scan-level event to its four coordinates. -/
def toEvent (d : Deletion) : CandidateEvent :=
  ⟨d.rstart, d.rend, d.qstart, d.qend⟩

/-- Round to the nearest integer with exact halves rounding up, as worded
by the specification for smoothed position means. -/
def roundHalfUp (q : ℚ) : Int := ⌊q + 1 / 2⌋

/-- Sum of the reference positions of a sample list. -/
def refSum (c : List costPos) : Int := (c.map costPos.ref).sum

/-- Sum of the query positions of a sample list. -/
def querySum (c : List costPos) : Int := (c.map costPos.query).sum

/-- Sum of the costs of a sample list. -/
def costSum (c : List costPos) : ℚ := (c.map costPos.cost).sum

/-- Number of alignment units that consume at least one reference or
query position, as worded by the claim that the sample count equals the
record's consumed positions. -/
def consumedUnits (cigar : List CigarOp) : Nat :=
  (cigar.map fun co =>
    if (consumes co.type).query ≠ 0 ∨ (consumes co.type).reference ≠ 0 then co.len else 0).sum

/-- Total number of reference and query positions consumed by a CIGAR,
the other reading of the same claim wording. -/
def consumedPositions (cigar : List CigarOp) : Int :=
  (cigar.map fun co =>
    (co.len : Int) * ((consumes co.type).query + (consumes co.type).reference)).sum

/-- Total unit count of a CIGAR: every unit of every element. -/
def totalLen (cigar : List CigarOp) : Nat := (cigar.map CigarOp.len).sum

/-- Unit count of the elements of one operation kind. -/
def unitCount (cigar : List CigarOp) (k : CigarOpType) : Nat :=
  ((cigar.filter fun co => co.type = k).map CigarOp.len).sum

/-- Cost signal with each sample tagged by the kind of the CIGAR element
that produced it; erasing the tags recovers `scoresFor`. -/
def scoresTagged (ref query : Int) : List CigarOp → List (CigarOpType × costPos)
  | [] => []
  | co :: rest =>
    (opSamples co.type ref query co.len).map (fun s => (co.type, s)) ++
      scoresTagged (ref + co.len * (consumes co.type).reference)
        (query + co.len * (consumes co.type).query) rest

/-- Reference-flank validation as worded by the claim about refinement
step 5: the left anchor's offset from the window's left edge and the
right anchor's offset from the window's right edge must each reach
`minRefFlank`. -/
def claimFlankOk (windowLen flank : Int) (left right : FeatPair) : Prop :=
  flank ≤ left.refEnd ∧ flank ≤ windowLen - right.refStart

/-- View of the Go scan state as the specification's fold state: `nil`
record is `none`, an open `deletion` is its start coordinates. -/
def stProj : Option Deletion → Option (Int × Int)
  | none => none
  | some d => some (d.rstart, d.qstart)

/-- Concrete refiner, record and event instances used by the witness
and counterexample instantiations below. -/
def refinerC5 : Refiner :=
  { refWindow := 20, queryWindow := 10, minQueryGap := 0, minRefFlank := 0,
    ref := fun n => if n = "chr" then some (List.replicate 100 'A') else none,
    sw := fun _ _ => .ok [⟨5, 10, 5, 10⟩] }

def recC5 : SamRecord :=
  { name := "rd", refName := "chr", pos := 0, flags := 0,
    seq := List.replicate 100 'A', cigar := [] }

def dC5 : Deletion := ⟨40, 50, 0, 30, 40⟩

def refinerC7 : Refiner :=
  { refWindow := 20, queryWindow := 10, minQueryGap := 0, minRefFlank := 3,
    ref := fun n => if n = "chr" then some (List.replicate 100 'A') else none,
    sw := fun _ _ => .ok [⟨5, 9, 1, 9⟩, ⟨0, 2, 0, 3⟩] }

def dC7 : Deletion := ⟨40, 50, 0, 30, 45⟩

def exRec10 : SamRecord :=
  { name := "rd", refName := "r", pos := 0, flags := 0,
    seq := List.replicate 12 'A',
    cigar := [⟨.cigarEqual, 3⟩, ⟨.cigarInsertion, 5⟩, ⟨.cigarEqual, 4⟩] }

def exFeat10 : Feature := ⟨"r", 4, 3, .plus, "rd", 5, 8, none⟩

theorem scanGo_spec (minSize : Int) (ps : List (costPos × costPos)) :
    ∀ st : Option Deletion,
      (scanGo minSize st ps).map toEvent = segmentSpec minSize (stProj st) ps := by
  induction ps with
  | nil => intro st; cases st <;> simp [scanGo, segmentSpec, stProj]
  | cons p rest ih =>
    intro st
    obtain ⟨prev, v⟩ := p
    cases st with
    | none =>
      by_cases ha : v.cost < 0 <;> by_cases hb : 0 ≤ prev.cost <;>
        simp [scanGo, segmentSpec, ha, hb, ih, stProj]
    | some d =>
      by_cases ha : 0 ≤ v.cost <;> by_cases hb : prev.cost < 0 <;>
        by_cases hc : minSize ≤ v.ref - d.rstart ∨ minSize ≤ v.query - d.qstart <;>
        simp [scanGo, segmentSpec, ha, hb, hc, ih, stProj, toEvent]

/-- Claim C1: the event segmenter scans consecutive smoothed samples with
a single fold state; it opens exactly on a nonnegative-to-negative cost
transition at `(cur.ref+1, cur.query+1)`, closes exactly on a
negative-to-nonnegative transition at the current sample's coordinates,
keeps a closed span iff its reference span or query span reaches
`minSize`, and discards an event still open at the end of the sequence:
the candidate events of the scan are exactly those of the specification
fold `segmentSpec`. -/
theorem deletions_scan_matches_spec (minSize : Int) (smoothed : List costPos) :
    (candidates minSize smoothed).map toEvent =
      segmentSpec minSize none (scanPairs smoothed) :=
  scanGo_spec minSize (scanPairs smoothed) none

theorem sums_go (c : List costPos) : ∀ acc : costPos,
    c.foldl (fun acc v => ⟨acc.ref + v.ref, acc.query + v.query, acc.cost + v.cost⟩) acc =
      ⟨acc.ref + refSum c, acc.query + querySum c, acc.cost + costSum c⟩ := by
  induction c with
  | nil => intro acc; simp [refSum, querySum, costSum]
  | cons x xs ih =>
    intro acc
    simp only [List.foldl_cons, ih, refSum, querySum, costSum, List.map_cons, List.sum_cons]
    simp only [costPos.mk.injEq]
    refine ⟨by ring, by ring, by ring⟩

theorem sums_eq (c : List costPos) : sums c = ⟨refSum c, querySum c, costSum c⟩ := by
  unfold sums
  rw [sums_go]
  simp

theorem goRound_eq_roundHalfUp (s l : Int) (hs : 0 ≤ s) (hl : 1 ≤ l) :
    goRound s l = roundHalfUp ((s : ℚ) / (l : ℚ)) := by
  unfold goRound roundHalfUp
  rw [Int.tdiv_eq_ediv (by omega) (by omega)]
  have hl0 : (l : ℚ) ≠ 0 := Int.cast_ne_zero.mpr (by omega)
  have h2l : (((2 * l).toNat : ℕ) : ℚ) = ((2 * l : ℤ) : ℚ) := by
    exact_mod_cast congrArg (fun z : ℤ => (z : ℚ)) (Int.toNat_of_nonneg (by omega : (0:ℤ) ≤ 2 * l))
  have hrw : (s : ℚ) / (l : ℚ) + 1 / 2 = ((2 * s + l : ℤ) : ℚ) / (((2 * l).toNat : ℕ) : ℚ) := by
    rw [h2l]
    push_cast
    field_simp
    ring
  rw [hrw, Rat.floor_intCast_div_natCast]
  rw [Int.toNat_of_nonneg (by omega : (0:ℤ) ≤ 2 * l)]

/-- Mean of a nonempty window with nonnegative position sums: exact cost
mean, half-up-rounded position means. -/
theorem mean_spec (c : List costPos) (hlen : 1 ≤ c.length)
    (href : 0 ≤ refSum c) (hq : 0 ≤ querySum c) :
    mean c = ⟨roundHalfUp ((refSum c : ℚ) / (c.length : ℚ)),
              roundHalfUp ((querySum c : ℚ) / (c.length : ℚ)),
              costSum c / (c.length : ℚ)⟩ := by
  unfold mean
  rw [sums_eq]
  rw [goRound_eq_roundHalfUp _ _ href (by exact_mod_cast hlen),
      goRound_eq_roundHalfUp _ _ hq (by exact_mod_cast hlen)]
  simp only [costPos.mk.injEq]
  norm_cast

theorem window_length (W : Nat) (scores : List costPos) (i : Nat)
    (hi : i < scores.length - W) : ((scores.drop i).take W).length = W := by
  simp only [List.length_take, List.length_drop]
  omega

/-- Claim C2: for a cost sequence of length `N` and window `W ≥ 1`
(positions nonnegative, as alignment coordinates are), a record whose
signal is no longer than the window is skipped; the smoothed output has
exactly `N - W` elements; element `i` carries the exact arithmetic mean
of the costs of samples `[i, i+W)` and the half-up-rounded arithmetic
means of their reference and query positions. -/
theorem smoother_spec (W : Nat) (hW : 1 ≤ W) (scores : List costPos)
    (hpos : ∀ s ∈ scores, 0 ≤ s.ref ∧ 0 ≤ s.query)
    (minSize : Int) (br : Option Refiner) (rec : SamRecord) :
    ((scoresFor rec.pos 0 rec.cigar).length ≤ W → processRecord W minSize br rec = []) ∧
    (scores.length ≤ W → smoothScores W scores = []) ∧
    (smoothScores W scores).length = scores.length - W ∧
    ∀ i, i < scores.length - W →
      (smoothScores W scores)[i]? =
        some ⟨roundHalfUp ((refSum ((scores.drop i).take W) : ℚ) / (W : ℚ)),
              roundHalfUp ((querySum ((scores.drop i).take W) : ℚ) / (W : ℚ)),
              costSum ((scores.drop i).take W) / (W : ℚ)⟩ := by
  refine ⟨fun h => ?_, fun h => ?_, ?_, fun i hi => ?_⟩
  · unfold processRecord
    rw [if_pos h]
  · unfold smoothScores
    simp [Nat.sub_eq_zero_of_le h]
  · simp [smoothScores]
  · have hmem : ∀ s ∈ (scores.drop i).take W, s ∈ scores := fun s hs =>
      List.mem_of_mem_drop (List.mem_of_mem_take hs)
    have href : 0 ≤ refSum ((scores.drop i).take W) := by
      refine List.sum_nonneg ?_
      intro x hx
      obtain ⟨s, hs, rfl⟩ := List.mem_map.mp hx
      exact (hpos s (hmem s hs)).1
    have hq : 0 ≤ querySum ((scores.drop i).take W) := by
      refine List.sum_nonneg ?_
      intro x hx
      obtain ⟨s, hs, rfl⟩ := List.mem_map.mp hx
      exact (hpos s (hmem s hs)).2
    have hlen : ((scores.drop i).take W).length = W := window_length W scores i hi
    unfold smoothScores
    rw [List.getElem?_map, List.getElem?_range hi]
    simp only [Option.map_some']
    rw [mean_spec _ (by omega) href hq, hlen]

theorem opSamples_costs (t : CigarOpType) :
    ∀ (n : Nat) (r q : Int), (opSamples t r q n).map costPos.cost = List.replicate n (cost t) := by
  intro n
  induction n with
  | zero => intro r q; simp [opSamples]
  | succ m ih => intro r q; simp [opSamples, List.replicate_succ, ih]

theorem opSamples_length (t : CigarOpType) :
    ∀ (n : Nat) (r q : Int), (opSamples t r q n).length = n := by
  intro n
  induction n with
  | zero => intro r q; simp [opSamples]
  | succ m ih => intro r q; simp [opSamples, ih]

theorem scoresTagged_erase :
    ∀ (cigar : List CigarOp) (ref query : Int),
      (scoresTagged ref query cigar).map Prod.snd = scoresFor ref query cigar := by
  intro cigar
  induction cigar with
  | nil => intro ref query; simp [scoresTagged, scoresFor]
  | cons co rest ih =>
    intro ref query
    simp [scoresTagged, scoresFor, List.map_append, List.map_map, Function.comp, ih]

theorem scoresTagged_cost :
    ∀ (cigar : List CigarOp) (ref query : Int) (t : CigarOpType) (s : costPos),
      (t, s) ∈ scoresTagged ref query cigar → s.cost = cost t := by
  intro cigar
  induction cigar with
  | nil => intro ref query t s h; simp [scoresTagged] at h
  | cons co rest ih =>
    intro ref query t s h
    simp only [scoresTagged, List.mem_append, List.mem_map] at h
    rcases h with ⟨u, hu, he⟩ | h
    · have h1 : co.type = t := congrArg Prod.fst he
      have h2 : u = s := congrArg Prod.snd he
      have hc : u.cost ∈ (opSamples co.type ref query co.len).map costPos.cost :=
        List.mem_map.mpr ⟨u, hu, rfl⟩
      rw [opSamples_costs] at hc
      have hu2 := List.eq_of_mem_replicate hc
      rw [← h2, ← h1]
      exact hu2
    · exact ih _ _ t s h

theorem tagged_filter_costs (t k : CigarOpType) (l : List costPos) :
    ((l.map fun s => (t, s)).filter fun p => p.1 = k).map (fun p => p.2.cost)
      = if t = k then l.map costPos.cost else [] := by
  induction l with
  | nil => by_cases h : t = k <;> simp [h]
  | cons x xs ih =>
    by_cases h : t = k
    · subst h; simp [List.filter_cons, ih]
    · simp [h, List.filter_cons, ih]

theorem scoresTagged_kind_sum (k : CigarOpType) :
    ∀ (cigar : List CigarOp) (ref query : Int),
      (((scoresTagged ref query cigar).filter fun p => p.1 = k).map fun p => p.2.cost).sum
        = (unitCount cigar k : ℚ) * cost k := by
  intro cigar
  induction cigar with
  | nil => intro ref query; simp [scoresTagged, unitCount]
  | cons co rest ih =>
    intro ref query
    simp only [scoresTagged, List.filter_append, List.map_append, List.sum_append, ih]
    rw [tagged_filter_costs]
    by_cases hk : co.type = k
    · rw [if_pos hk]
      rw [opSamples_costs]
      simp only [List.sum_replicate, nsmul_eq_mul]
      have hcount : unitCount (co :: rest) k = co.len + unitCount rest k := by
        simp [unitCount, List.filter_cons, hk]
      rw [hcount, hk]
      push_cast
      ring
    · rw [if_neg hk]
      have hcount : unitCount (co :: rest) k = unitCount rest k := by
        simp [unitCount, List.filter_cons, hk]
      rw [hcount]
      simp

/-- Claim C3: the cost table maps sequence match to 1, mismatch to -1,
insertion and deletion to -2, soft-clip to 0, and every other kind to 0
rather than an error; every unit of every element contributes exactly one
sample whose cost is the table value of its kind; and the total cost
contributed by the units of one kind is the unit count of that kind times
its table cost. -/
theorem cost_signal_spec :
    (cost .cigarEqual = 1 ∧ cost .cigarMismatch = -1 ∧ cost .cigarInsertion = -2 ∧
      cost .cigarDeletion = -2 ∧ cost .cigarSoftClipped = 0) ∧
    (∀ t : CigarOpType, t ≠ .cigarEqual → t ≠ .cigarMismatch → t ≠ .cigarInsertion →
      t ≠ .cigarDeletion → t ≠ .cigarSoftClipped → cost t = 0) ∧
    (∀ (ref query : Int) (cigar : List CigarOp),
      (scoresTagged ref query cigar).map Prod.snd = scoresFor ref query cigar) ∧
    (∀ (ref query : Int) (cigar : List CigarOp) (t : CigarOpType) (s : costPos),
      (t, s) ∈ scoresTagged ref query cigar → s.cost = cost t) ∧
    (∀ (ref query : Int) (cigar : List CigarOp) (k : CigarOpType),
      (((scoresTagged ref query cigar).filter fun p => p.1 = k).map fun p => p.2.cost).sum
        = (unitCount cigar k : ℚ) * cost k) := by
  refine ⟨⟨rfl, rfl, rfl, rfl, rfl⟩, ?_, ?_, ?_, ?_⟩
  · intro t h1 h2 h3 h4 h5
    cases t <;> simp_all [cost]
  · intro ref query cigar
    exact scoresTagged_erase cigar ref query
  · intro ref query cigar t s h
    exact scoresTagged_cost cigar ref query t s h
  · intro ref query cigar k
    exact scoresTagged_kind_sum k cigar ref query

theorem scoresFor_length :
    ∀ (cigar : List CigarOp) (ref query : Int),
      (scoresFor ref query cigar).length = totalLen cigar := by
  intro cigar
  induction cigar with
  | nil => intro ref query; simp [scoresFor, totalLen]
  | cons co rest ih => intro ref query; simp [scoresFor, totalLen, opSamples_length, ih]

/-- Counterexample to claim C4: a record whose CIGAR is a single 5-unit
hard clip yields 5 cost samples, while the hard clip consumes no
reference or query position at all, under either reading of consumed
positions. -/
theorem sample_count_ne_consumed :
    (scoresFor 0 0 [⟨.cigarHardClipped, 5⟩]).length = 5 ∧
    consumedUnits [⟨.cigarHardClipped, 5⟩] = 0 ∧
    consumedPositions [⟨.cigarHardClipped, 5⟩] = 0 := by
  decide

/-- Claim C4 (amended): the cost-signal builder emits exactly one sample
per unit of every CIGAR element, so the sample count is the total element
length - which counts zero-consuming units (hard clips, padding) as well
as consuming ones. -/
theorem scores_length_eq_totalLen (ref query : Int) (cigar : List CigarOp) :
    (scoresFor ref query cigar).length = totalLen cigar :=
  scoresFor_length cigar ref query

theorem adjust_false_eq (rOpt : Option Refiner) (rec : SamRecord) (d : Deletion)
    (h : (adjust rOpt rec d).2.1 = false) : (adjust rOpt rec d).1 = d := by
  rcases rOpt with _ | r
  · rfl
  · by_cases h1 : d.qend - d.qstart < d.rend - d.rstart
    · simp [adjust, h1]
    · rcases href : r.ref rec.refName with _ | refSeq
      · simp [adjust, h1, href]
      · rcases hswl : r.sw (rsSeqOf r refSeq d) (qslOf r rec.seq d) with e | alnl
        · simp [adjust, h1, href, hswl]
        · rcases hswr : r.sw (rsSeqOf r refSeq d) (qsrOf r rec.seq d) with e | alnr
          · simp [adjust, h1, href, hswl, hswr]
          · rcases hl : alnl.getLast? with _ | left
            · rcases hr : alnr.head? with _ | right <;>
                simp [adjust, h1, href, hswl, hswr, hl, hr]
            · rcases hr : alnr.head? with _ | right
              · simp [adjust, h1, href, hswl, hswr, hl, hr]
              · simp only [adjust, h1, href, hswl, hswr, hl, hr] at h ⊢
                split_ifs at h ⊢ <;> simp_all

/-- Claim C6: whenever `adjust` reports failure, whatever its cause, the
returned event is the input event unchanged in every field. -/
theorem adjust_failure_preserves_event (rOpt : Option Refiner) (rec : SamRecord)
    (d : Deletion) (h : (adjust rOpt rec d).2.1 = false) :
    (adjust rOpt rec d).1 = d :=
  adjust_false_eq rOpt rec d h

theorem adjust_failure_preserves_event_witness :
    (adjust none ⟨"rd", "chr", 0, 0, [], []⟩ ⟨1, 5, 0, 2, 9⟩).2.1 = false ∧
    (adjust none ⟨"rd", "chr", 0, 0, [], []⟩ ⟨1, 5, 0, 2, 9⟩).1 = ⟨1, 5, 0, 2, 9⟩ :=
  ⟨rfl, adjust_failure_preserves_event none ⟨"rd", "chr", 0, 0, [], []⟩ ⟨1, 5, 0, 2, 9⟩ rfl⟩

/-- Claim C5 (amended): with a configured refiner, `adjust` rejects an
event as `not an insertion` - skipping refinement and returning the input
with `ok = false` - exactly when the query span is strictly smaller than
the reference span; an event whose query span equals its reference span
is not skipped by this gate. -/
theorem adjust_insertion_gate (r : Refiner) (rec : SamRecord) (d : Deletion) :
    ((adjust (some r) rec d).2.2 = some "not an insertion" ↔
      d.qend - d.qstart < d.rend - d.rstart) ∧
    (d.qend - d.qstart < d.rend - d.rstart →
      adjust (some r) rec d = (d, false, some "not an insertion")) := by
  constructor
  · constructor
    · intro h
      by_contra h1
      rcases href : r.ref rec.refName with _ | refSeq
      · simp [adjust, h1, href] at h
      · rcases hswl : r.sw (rsSeqOf r refSeq d) (qslOf r rec.seq d) with e | alnl
        · simp [adjust, h1, href, hswl] at h
        · rcases hswr : r.sw (rsSeqOf r refSeq d) (qsrOf r rec.seq d) with e | alnr
          · simp [adjust, h1, href, hswl, hswr] at h
          · rcases hl : alnl.getLast? with _ | left
            · rcases hr : alnr.head? with _ | right <;>
                simp [adjust, h1, href, hswl, hswr, hl, hr] at h
            · rcases hr : alnr.head? with _ | right
              · simp [adjust, h1, href, hswl, hswr, hl, hr] at h
              · simp only [adjust, h1, href, hswl, hswr, hl, hr] at h
                split_ifs at h <;> simp_all
    · intro h
      simp [adjust, h]
  · intro h
    simp [adjust, h]

theorem adjust_insertion_gate_witness :
    ((adjust (some refinerC5) recC5 ⟨40, 50, 0, 30, 35⟩).2.2 = some "not an insertion" ↔
      (35 : Int) - 30 < 50 - 40) ∧
    ((35 : Int) - 30 < 50 - 40 →
      adjust (some refinerC5) recC5 ⟨40, 50, 0, 30, 35⟩ =
        (⟨40, 50, 0, 30, 35⟩, false, some "not an insertion")) :=
  adjust_insertion_gate refinerC5 recC5 ⟨40, 50, 0, 30, 35⟩

/-- Counterexample to claim C5: an event whose query span equals its
reference span is not skipped - refinement proceeds and here returns
`ok = true` with a modified event, where the claim requires a skip
returning the original event with `ok = false`. -/
theorem adjust_equal_span_refines :
    dC5.qend - dC5.qstart = dC5.rend - dC5.rstart ∧
    adjust (some refinerC5) recC5 dC5 = (⟨35, 35, 5, 30, 40⟩, true, none) := by
  decide

/-- Claim C7 (amended): with the insertion gate passed, the contig found
and both alignments produced, `adjust` fails with an
insufficient-reference-flank diagnostic exactly when the right anchor's
reference offset from the window's left edge is below `minRefFlank` or
the left anchor's reference offset from the window's right edge is below
`minRefFlank`; any such failure returns the input event with
`ok = false`. -/
theorem adjust_ref_flank_gate (r : Refiner) (rec : SamRecord) (d : Deletion)
    (refSeq : List Char) (alnl alnr : List FeatPair) (left right : FeatPair)
    (hshape : ¬ d.qend - d.qstart < d.rend - d.rstart)
    (href : r.ref rec.refName = some refSeq)
    (hswl : r.sw (rsSeqOf r refSeq d) (qslOf r rec.seq d) = .ok alnl)
    (hswr : r.sw (rsSeqOf r refSeq d) (qsrOf r rec.seq d) = .ok alnr)
    (hleft : alnl.getLast? = some left)
    (hright : alnr.head? = some right) :
    (((adjust (some r) rec d).2.2 = some "right ref flank" ∨
      (adjust (some r) rec d).2.2 = some "left ref flank") ↔
      (right.refStart < r.minRefFlank ∨
        ((rsSeqOf r refSeq d).length : Int) - left.refEnd < r.minRefFlank)) ∧
    ((right.refStart < r.minRefFlank ∨
        ((rsSeqOf r refSeq d).length : Int) - left.refEnd < r.minRefFlank) →
      (adjust (some r) rec d).1 = d ∧ (adjust (some r) rec d).2.1 = false) := by
  simp only [adjust, href, hswl, hswr, hleft, hright]
  rw [if_neg hshape]
  split_ifs with hf1 hf2 hg1 hg2 <;> simp_all

theorem adjust_ref_flank_gate_witness :
    ((adjust (some refinerC7) recC5 dC7).2.2 = some "right ref flank" ∨
      (adjust (some refinerC7) recC5 dC7).2.2 = some "left ref flank") ↔
      ((5 : Int) < refinerC7.minRefFlank ∨
        ((rsSeqOf refinerC7 (List.replicate 100 'A') dC7).length : Int) - 2 <
          refinerC7.minRefFlank) :=
  (adjust_ref_flank_gate refinerC7 recC5 dC7 (List.replicate 100 'A')
    [⟨5, 9, 1, 9⟩, ⟨0, 2, 0, 3⟩] [⟨5, 9, 1, 9⟩, ⟨0, 2, 0, 3⟩]
    ⟨0, 2, 0, 3⟩ ⟨5, 9, 1, 9⟩ (by decide) rfl rfl rfl rfl rfl).1

/-- Counterexample to claim C7: the refiner's flank validation compares
the right anchor against the left window edge and the left anchor against
the right window edge, not - as the claim has it - the left anchor
against the left edge and the right anchor against the right edge.  Here
the left anchor sits 2 bases from the window's left edge, below
`minRefFlank = 3`, so the claim demands `ok = false`, yet refinement
succeeds. -/
theorem adjust_flank_claim_false :
    adjust (some refinerC7) recC5 dC7 = (⟨32, 35, 0, 23, 38⟩, true, none) ∧
    ¬ claimFlankOk ((rsSeqOf refinerC7 (List.replicate 100 'A') dC7).length : Int)
        refinerC7.minRefFlank ⟨0, 2, 0, 3⟩ ⟨5, 9, 1, 9⟩ := by
  constructor
  · decide
  · intro h
    exact absurd h.1 (by decide)

/-- Claim C8: a successful refinement anchors the raw reference
coordinates at window offset plus the left anchor's end (start) and
window offset plus the right anchor's start (end); when the raw end does
not exceed the raw start the duplication length becomes their difference
and the start collapses onto the end; consequently the refined event has
`rstart ≤ rend`, and its duplication length is positive exactly in the
strictly non-colinear case and zero otherwise (the input duplication
length being zero, as every event from the segmenter is). -/
theorem adjust_ok_geometry (r : Refiner) (rec : SamRecord) (d : Deletion)
    (refSeq : List Char) (alnl alnr : List FeatPair) (left right : FeatPair)
    (href : r.ref rec.refName = some refSeq)
    (hswl : r.sw (rsSeqOf r refSeq d) (qslOf r rec.seq d) = .ok alnl)
    (hswr : r.sw (rsSeqOf r refSeq d) (qsrOf r rec.seq d) = .ok alnr)
    (hleft : alnl.getLast? = some left)
    (hright : alnr.head? = some right)
    (hok : (adjust (some r) rec d).2.1 = true)
    (hdup : d.dup = 0) :
    (adjust (some r) rec d).1.rend = rsOff r d + right.refStart ∧
    (rsOff r d + right.refStart ≤ rsOff r d + left.refEnd →
      (adjust (some r) rec d).1.rstart = rsOff r d + right.refStart ∧
      (adjust (some r) rec d).1.dup =
        (rsOff r d + left.refEnd) - (rsOff r d + right.refStart)) ∧
    (rsOff r d + left.refEnd < rsOff r d + right.refStart →
      (adjust (some r) rec d).1.rstart = rsOff r d + left.refEnd ∧
      (adjust (some r) rec d).1.dup = 0) ∧
    (adjust (some r) rec d).1.rstart ≤ (adjust (some r) rec d).1.rend ∧
    (0 < (adjust (some r) rec d).1.dup ↔
      rsOff r d + right.refStart < rsOff r d + left.refEnd) := by
  by_cases h1 : d.qend - d.qstart < d.rend - d.rstart
  · simp [adjust, h1] at hok
  · simp only [adjust, href, hswl, hswr, hleft, hright] at hok ⊢
    rw [if_neg h1] at hok ⊢
    split_ifs at hok ⊢ with hf1 hf2 hg1 hg2 hc <;> try simp_all
    all_goals omega

/-- Claim C9 (amended): the reference window is the contig slice from
`rstart - refWindow/2` to `rend + refWindow/2`, each end clamped to the
contig bounds - so it extends up to `refWindow/2` bases beyond each end
of the event and its length can exceed `refWindow` by the event's
reference span; its offset `rsOff` into the contig is recorded and a
successful refinement adds it back to the anchor positions. -/
theorem ref_window_spec (r : Refiner) (rec : SamRecord) (d : Deletion)
    (refSeq : List Char) (alnl alnr : List FeatPair) (left right : FeatPair)
    (href : r.ref rec.refName = some refSeq)
    (hswl : r.sw (rsSeqOf r refSeq d) (qslOf r rec.seq d) = .ok alnl)
    (hswr : r.sw (rsSeqOf r refSeq d) (qsrOf r rec.seq d) = .ok alnr)
    (hleft : alnl.getLast? = some left)
    (hright : alnr.head? = some right)
    (hok : (adjust (some r) rec d).2.1 = true) :
    ((rsSeqOf r refSeq d).length : Int) =
      max 0 (min (d.rend + Int.tdiv r.refWindow 2) (refSeq.length : Int) - rsOff r d) ∧
    (∀ i : Nat, i < (rsSeqOf r refSeq d).length →
      (rsSeqOf r refSeq d)[i]? = refSeq[(rsOff r d).toNat + i]?) ∧
    (adjust (some r) rec d).1.rend = rsOff r d + right.refStart ∧
    (adjust (some r) rec d).1.qstart = qOffLeftOf r d + left.qEnd ∧
    (adjust (some r) rec d).1.qend = qMid d + right.qStart := by
  have hoff : rsOff r d = max 0 (d.rstart - Int.tdiv r.refWindow 2) := rfl
  have hlen : (rsSeqOf r refSeq d).length =
      min (min (d.rend + Int.tdiv r.refWindow 2) (refSeq.length : Int)).toNat refSeq.length
        - (rsOff r d).toNat := by
    simp [rsSeqOf, slice]
  refine ⟨?_, ?_, ?_⟩
  · rw [hlen]
    omega
  · intro i hi
    rw [hlen] at hi
    have hstep : rsSeqOf r refSeq d =
        (refSeq.take (min (d.rend + Int.tdiv r.refWindow 2) (refSeq.length : Int)).toNat).drop
          (rsOff r d).toNat := rfl
    rw [hstep, List.getElem?_drop, List.getElem?_take_of_lt]
    omega
  · by_cases h1 : d.qend - d.qstart < d.rend - d.rstart
    · simp [adjust, h1] at hok
    · simp only [adjust, href, hswl, hswr, hleft, hright] at hok ⊢
      rw [if_neg h1] at hok ⊢
      split_ifs at hok ⊢ with hf1 hf2 hg1 hg2 hc <;> simp_all

theorem ref_window_spec_witness :
    ((rsSeqOf refinerC5 (List.replicate 100 'A') dC5).length : Int) =
      max 0 (min (dC5.rend + Int.tdiv refinerC5.refWindow 2)
        (((List.replicate 100 'A').length : Nat) : Int) - rsOff refinerC5 dC5) ∧
    (adjust (some refinerC5) recC5 dC5).1.rend = rsOff refinerC5 dC5 + 5 := by
  have h := ref_window_spec refinerC5 recC5 dC5 (List.replicate 100 'A')
    [⟨5, 10, 5, 10⟩] [⟨5, 10, 5, 10⟩] ⟨5, 10, 5, 10⟩ ⟨5, 10, 5, 10⟩
    (by decide) rfl rfl (by decide) (by decide) (by decide)
  exact ⟨h.1, h.2.2.1⟩

/-- Counterexample to claim C9: the reference window is not limited to
`refWindow` bases - with `refWindow = 20` and the event spanning
`[40, 50)` of a 100-base contig the extracted window has 30 bases,
because the slice runs from `rstart - refWindow/2` to
`rend + refWindow/2` rather than covering `refWindow` bases centred on
the event midpoint. -/
theorem ref_window_longer_than_refWindow :
    ((rsSeqOf refinerC5 (List.replicate 100 'A') dC5).length : Int) = 30 ∧
    refinerC5.refWindow = 20 ∧ ¬ ((30 : Int) ≤ 20) := by
  decide

/-- Claim C10 (amended): a feature emitted for an event whose refined
reference start does not exceed its end has end strictly greater than
start - the end is bumped by one exactly when the two are equal - and the
read name and query attribute fields are the same whether or not the
bump fired; an event with reference end below start (possible for pure
insertions after rounding) is emitted with end below start. -/
theorem emit_feature_end (br : Option Refiner) (rec : SamRecord) (d0 : Deletion)
    (h : (adjust br rec (mirrorIfMinus rec d0)).1.rstart ≤
      (adjust br rec (mirrorIfMinus rec d0)).1.rend) :
    (emitOne br rec d0).featStart < (emitOne br rec d0).featEnd ∧
    (emitOne br rec d0).featStart = (adjust br rec (mirrorIfMinus rec d0)).1.rstart ∧
    (emitOne br rec d0).featEnd =
      (if (adjust br rec (mirrorIfMinus rec d0)).1.rstart =
          (adjust br rec (mirrorIfMinus rec d0)).1.rend
        then (adjust br rec (mirrorIfMinus rec d0)).1.rend + 1
        else (adjust br rec (mirrorIfMinus rec d0)).1.rend) ∧
    (emitOne br rec d0).readName = rec.name ∧
    (emitOne br rec d0).attrQStart = (adjust br rec (mirrorIfMinus rec d0)).1.qstart + 1 ∧
    (emitOne br rec d0).attrQEnd = (adjust br rec (mirrorIfMinus rec d0)).1.qend := by
  unfold emitOne
  by_cases he : (adjust br rec (mirrorIfMinus rec d0)).1.rstart =
      (adjust br rec (mirrorIfMinus rec d0)).1.rend <;>
    (simp [he]; try omega)

theorem emit_feature_end_witness :
    (emitOne none ⟨"rd", "chr", 0, 0, [], []⟩ ⟨1, 1, 0, 0, 5⟩).featStart <
      (emitOne none ⟨"rd", "chr", 0, 0, [], []⟩ ⟨1, 1, 0, 0, 5⟩).featEnd :=
  (emit_feature_end none ⟨"rd", "chr", 0, 0, [], []⟩ ⟨1, 1, 0, 0, 5⟩ (by decide)).1

theorem exRec10_scores : scoresFor 0 0 exRec10.cigar =
    [⟨0, 0, 1⟩, ⟨1, 1, 1⟩, ⟨2, 2, 1⟩, ⟨3, 3, -2⟩, ⟨3, 4, -2⟩, ⟨3, 5, -2⟩, ⟨3, 6, -2⟩,
     ⟨3, 7, -2⟩, ⟨3, 8, 1⟩, ⟨4, 9, 1⟩, ⟨5, 10, 1⟩, ⟨6, 11, 1⟩] := by
  norm_num [exRec10, scoresFor, opSamples, consumes, cost]

theorem exRec10_smooth : smoothScores 3
    [⟨0, 0, 1⟩, ⟨1, 1, 1⟩, ⟨2, 2, 1⟩, ⟨3, 3, -2⟩, ⟨3, 4, -2⟩, ⟨3, 5, -2⟩, ⟨3, 6, -2⟩,
     ⟨3, 7, -2⟩, ⟨3, 8, 1⟩, ⟨4, 9, 1⟩, ⟨5, 10, 1⟩, ⟨6, 11, 1⟩] =
    [⟨1, 1, 1⟩, ⟨2, 2, 0⟩, ⟨3, 3, -1⟩, ⟨3, 4, -2⟩, ⟨3, 5, -2⟩, ⟨3, 6, -2⟩, ⟨3, 7, -1⟩,
     ⟨3, 8, 0⟩, ⟨4, 9, 1⟩] := by
  norm_num [smoothScores, mean, sums, goRound, List.range_succ]
  decide

theorem exRec10_cands : candidates 0
    [⟨1, 1, 1⟩, ⟨2, 2, 0⟩, ⟨3, 3, -1⟩, ⟨3, 4, -2⟩, ⟨3, 5, -2⟩, ⟨3, 6, -2⟩, ⟨3, 7, -1⟩,
     ⟨3, 8, 0⟩, ⟨4, 9, 1⟩] = [⟨4, 3, 0, 4, 8⟩] := by
  decide

/-- Counterexample to claim C10: a plus-strand record with CIGAR
`3= 5I 4=`, window 3 and minimum size 0 closes an event whose rounded
reference end (3) lies one base before its reference start (4); the
emitted feature keeps end 3 below start 4, the start/end-equal bump never
firing, so an emitted feature can have end smaller than start. -/
theorem deletions_emit_end_lt_start :
    processRecord 3 0 none exRec10 = [exFeat10] ∧
    ¬ exFeat10.featStart < exFeat10.featEnd := by
  constructor
  · unfold processRecord
    rw [show exRec10.pos = (0 : Int) from rfl, exRec10_scores, exRec10_smooth, exRec10_cands]
    decide
  · decide

theorem smoother_spec_witness :
    (smoothScores 2 [⟨0, 0, 1⟩, ⟨1, 1, -2⟩, ⟨2, 2, -2⟩])[0]? =
      some ⟨roundHalfUp ((refSum [⟨0, 0, 1⟩, ⟨1, 1, -2⟩] : ℚ) / (2 : ℚ)),
            roundHalfUp ((querySum [⟨0, 0, 1⟩, ⟨1, 1, -2⟩] : ℚ) / (2 : ℚ)),
            costSum [⟨0, 0, 1⟩, ⟨1, 1, -2⟩] / (2 : ℚ)⟩ := by
  have h := (smoother_spec 2 (by norm_num) [⟨0, 0, 1⟩, ⟨1, 1, -2⟩, ⟨2, 2, -2⟩] (by decide)
      0 none ⟨"", "", 0, 0, [], []⟩).2.2.2 0 (by norm_num)
  exact h

theorem cost_signal_spec_witness :
    (((scoresTagged 0 0 [⟨.cigarEqual, 2⟩, ⟨.cigarInsertion, 1⟩]).filter
        fun p => p.1 = CigarOpType.cigarInsertion).map fun p => p.2.cost).sum
      = (unitCount [⟨.cigarEqual, 2⟩, ⟨.cigarInsertion, 1⟩] CigarOpType.cigarInsertion : ℚ) *
          cost .cigarInsertion :=
  cost_signal_spec.2.2.2.2 0 0 [⟨.cigarEqual, 2⟩, ⟨.cigarInsertion, 1⟩] .cigarInsertion

theorem adjust_ok_geometry_witness :
    (adjust (some refinerC5) recC5 dC5).1.rstart ≤ (adjust (some refinerC5) recC5 dC5).1.rend ∧
    (0 < (adjust (some refinerC5) recC5 dC5).1.dup ↔
      rsOff refinerC5 dC5 + (5 : Int) < rsOff refinerC5 dC5 + 10) := by
  have h := adjust_ok_geometry refinerC5 recC5 dC5 (List.replicate 100 'A')
    [⟨5, 10, 5, 10⟩] [⟨5, 10, 5, 10⟩] ⟨5, 10, 5, 10⟩ ⟨5, 10, 5, 10⟩
    (by decide) rfl rfl (by decide) (by decide) (by decide) rfl
  exact ⟨h.2.2.2.1, h.2.2.2.2⟩

end Reefer

